import Mathlib

/-!
Verification of the scas linker core (`src/linker/linker.c`).

The C code is shallowly embedded: each linker function becomes an executable
Lean definition over explicit state.  Machine integers (`uint64_t`,
`uint16_t`, bytes) are modelled as `Nat` with explicit `% 2 ^ w` where the C
arithmetic can wrap.  External collaborators that are not part of
`src/linker/linker.c` (the expression evaluator, `relocate_area` /
`append_to_area` from objects.c, the object merger) are modelled from the
specification and marked as such in their doc comments.
-/

namespace Scas

/-- `2 ^ 64`, the modulus of the C `uint64_t` arithmetic. -/
def U64 : Nat := 2 ^ 64

/-- Two's-complement style subtraction on `uint64_t`: `(a - b) mod 2 ^ 64`. -/
def u64sub (a b : Nat) : Nat := (a + (U64 - b % U64)) % U64

/-- Bitwise complement `~x` on `uint64_t` (for `x < 2 ^ 64`). -/
def compl64 (x : Nat) : Nat := (U64 - 1) - x % U64

/-- A symbol (`symbol_t`): name, resolved value, defining address.
The linker only reads names and values and (for the origin option) shifts
values; the type tag and exported flag are never consulted by the code under
verification and are omitted. -/
structure Symbol where
  name : String
  value : Nat
  definedAddress : Nat
deriving Repr, DecidableEq

/-- The immediate kind tag (`IMM_TYPE_ABSOLUTE` / `IMM_TYPE_RELATIVE`). -/
inductive ImmType where
  | absolute
  | relative
deriving Repr, DecidableEq

/-- Modelled from the spec: the expression language consumed by the external
evaluator (`expression.c` is not under `src/`).  Constants, symbol
references, subtraction and a malformed expression cover the interface
behaviours the spec describes: success, unresolved symbol, bad syntax. -/
inductive Expression where
  | const (v : Nat)
  | symRef (name : String)
  | sub (a b : Expression)
  | malformed
deriving Repr, DecidableEq

/-- A late immediate (`late_immediate_t`): pending expression, kind, declared
bit width, instruction address, base address and byte offset (`address`)
into the owning area. -/
structure LateImmediate where
  type : ImmType
  width : Nat
  instructionAddress : Nat
  baseAddress : Nat
  address : Nat
  expression : Expression
deriving Repr, DecidableEq

/-- An area (`area_t`): named byte buffer with local symbols and late
immediates; `finalAddress` is assigned during placement.  `data_length` is
`data.length`. -/
structure Area where
  name : String
  data : List Nat
  symbols : List Symbol
  lateImmediates : List LateImmediate
  finalAddress : Nat
deriving Repr, DecidableEq

/-- Diagnostic codes used by the linker (`ERROR_UNKNOWN_SYMBOL`,
`ERROR_INVALID_SYNTAX`, `ERROR_VALUE_TRUNCATED`, `ERROR_DUPLICATE_SYMBOL`). -/
inductive ErrorCode where
  | unknownSymbol
  | invalidSyntax
  | valueTruncated
  | duplicateSymbol
deriving Repr, DecidableEq

/-- A diagnostic as produced by `add_error_from_map`: code, the address
passed with it, and the symbol name argument when one is supplied. -/
structure Diag where
  code : ErrorCode
  address : Nat
  name : Option String
deriving Repr, DecidableEq

/-- ASCII lower-casing of one character code, as `tolower` treats the bytes
that `strcasecmp` compares. -/
def lowerNat (c : Char) : Nat :=
  if 65 ≤ c.toNat ∧ c.toNat ≤ 90 then c.toNat + 32 else c.toNat

/-- The lower-cased character codes of a string. -/
def lowerKey (s : String) : List Nat := s.data.map lowerNat

/-- Case-insensitive name comparison (`strcasecmp(a, b) == 0`). -/
def caseEq (a b : String) : Bool := lowerKey a == lowerKey b

/-- `find_symbol` (linker.c:26): first symbol in the list whose name matches
case-insensitively, else `NULL`. -/
def find_symbol (symbols : List Symbol) (name : String) : Option Symbol :=
  symbols.find? (fun s => caseEq s.name name)

/-- Outcome of `evaluate_expression`: the `uint64_t` value on success, or
one of the two recoverable error kinds (`EXPRESSION_BAD_SYMBOL` carrying the
failing name, `EXPRESSION_BAD_SYNTAX`). -/
inductive EvalResult where
  | ok (v : Nat)
  | badSymbol (name : String)
  | badSyntax
deriving Repr, DecidableEq

/-- Modelled from the spec: the external expression evaluator
(`evaluate(expression, symbolTable) -> (value, errorKind?, failingName?)`,
spec section 6; `expression.c` is not under `src/`).  Symbol references are
resolved through the case-insensitive symbol table; an unresolved name
yields the bad-symbol error with that name; a malformed expression yields
the bad-syntax error. -/
def evaluate_expression : Expression → List Symbol → EvalResult
  | .const v, _ => .ok (v % U64)
  | .symRef n, syms =>
      match find_symbol syms n with
      | some s => .ok (s.value % U64)
      | none => .badSymbol n
  | .sub a b, syms =>
      match evaluate_expression a syms with
      | .ok va =>
          match evaluate_expression b syms with
          | .ok vb => .ok (u64sub va vb)
          | r => r
      | r => r
  | .malformed, _ => .badSyntax

/-- The mask-building loop of linker.c:70-75 run `n` times:
`mask = 1; repeat n times { mask <<= 1; mask |= 1; }`. -/
def buildMask : Nat → Nat
  | 0 => 1
  | n + 1 => 2 * buildMask n + 1

/-- The width mask of linker.c:70-75: the loop body executes `width - 1`
times for `width ≥ 1`, producing the low-`width`-bits mask. -/
def mkMask (width : Nat) : Nat := buildMask (width - 1)

/-- The patch loop of linker.c:90-94: for `count` bytes, OR the low byte of
`v` into the buffer at `addr`, then advance (`area->data[addr+j] |= v & 0xFF;
v >>= 8;`).  Little-endian by construction. -/
def patchBytes : List Nat → Nat → Nat → Nat → List Nat
  | data, _, _, 0 => data
  | data, addr, v, n + 1 =>
      patchBytes (data.set addr ((data.getD addr 0) ||| (v &&& 255))) (addr + 1) (v >>> 8) n

/-- The transient `$` symbol bound to the absolute instruction address
(linker.c:46-50). -/
def pcSymbol (addr : Nat) : Symbol := ⟨"$", addr, 0⟩

/-- State threaded through `resolve_immediate_values`: the shared symbol
table, the area's byte buffer, and the accumulated diagnostics. -/
structure ResolveState where
  symbols : List Symbol
  data : List Nat
  errors : List Diag
deriving Repr, DecidableEq

/-- One iteration of the loop in `resolve_immediate_values`
(linker.c:41-96) for a single late immediate:
convert the instruction and base addresses to absolute, push the `$`
symbol, evaluate, pop `$` again, then either record the evaluation error or
perform the truncation check and patch the buffer.  All `uint64_t`
arithmetic wraps modulo `2 ^ 64`. -/
def resolveOne (finalAddress : Nat) (st : ResolveState) (imm : LateImmediate) : ResolveState :=
  let instructionAddress := (imm.instructionAddress + finalAddress) % U64
  let baseAddress := (imm.baseAddress + finalAddress) % U64
  let symsPC := st.symbols ++ [pcSymbol instructionAddress]
  let res := evaluate_expression imm.expression symsPC
  let syms := symsPC.dropLast
  match res with
  | .badSymbol s =>
      { symbols := syms, data := st.data,
        errors := st.errors ++ [⟨.unknownSymbol, instructionAddress, some s⟩] }
  | .badSyntax =>
      { symbols := syms, data := st.data,
        errors := st.errors ++ [⟨.invalidSyntax, instructionAddress, none⟩] }
  | .ok v =>
      let result := if imm.type = ImmType.relative then u64sub v baseAddress else v
      let m := mkMask imm.width
      let errs : List Diag :=
        if imm.type = ImmType.relative then
          if (result &&& (m >>> 1)) ≠ result ∧
              ((result &&& 2 ^ imm.width) = 0 ∨ (result &&& compl64 m) ≠ compl64 m) then
            [⟨.valueTruncated, instructionAddress, none⟩]
          else []
        else
          if (result &&& m) ≠ result ∧ compl64 result >>> imm.width ≠ 0 then
            [⟨.valueTruncated, instructionAddress, none⟩]
          else []
      { symbols := syms,
        data := patchBytes st.data imm.address (result &&& m) (imm.width / 8),
        errors := st.errors ++ errs }

/-- `resolve_immediate_values` (linker.c:37): fold `resolveOne` over the
area's late immediates in stored order. -/
def resolve_immediate_values (symbols : List Symbol) (area : Area) (errors : List Diag) :
    ResolveState :=
  area.lateImmediates.foldl (resolveOne area.finalAddress) ⟨symbols, area.data, errors⟩

/-- The loop body of `auto_relocate_area` (linker.c:104-111): when the
immediate is not relative and its base address differs from its patch
offset, append the 16-bit truncation of `offset + final_address` to the
relocation buffer, little-endian. -/
def relocStep (finalAddress : Nat) (acc : List Nat) (imm : LateImmediate) : List Nat :=
  if imm.type ≠ ImmType.relative ∧ imm.baseAddress ≠ imm.address then
    let value := (imm.address + finalAddress) % 2 ^ 16
    acc ++ [value % 256, value / 256]
  else acc

/-- `auto_relocate_area` (linker.c:101): fold `relocStep` over the area's
late immediates in visitation order. -/
def auto_relocate_area (area : Area) (relocData : List Nat) : List Nat :=
  area.lateImmediates.foldl (relocStep area.finalAddress) relocData

/-- The loop body of `gather_symbols` (linker.c:117-123): insert the symbol
into the global table unless a case-insensitive match already exists, in
which case report a duplicate-symbol diagnostic carrying the new symbol's
name and defining address. -/
def gatherStep (acc : List Symbol × List Diag) (sym : Symbol) : List Symbol × List Diag :=
  match find_symbol acc.1 sym.name with
  | some _ => (acc.1, acc.2 ++ [⟨.duplicateSymbol, sym.definedAddress, some sym.name⟩])
  | none => (acc.1 ++ [sym], acc.2)

/-- `gather_symbols` (linker.c:114): fold `gatherStep` over the area's
symbols in order. -/
def gather_symbols (symbols : List Symbol) (area : Area) (errors : List Diag) :
    List Symbol × List Diag :=
  area.symbols.foldl gatherStep (symbols, errors)

/-- `move_origin` (linker.c:127): add the configured origin to every symbol
value (`uint64_t` addition). -/
def move_origin (origin : Nat) (symbols : List Symbol) : List Symbol :=
  symbols.map (fun s => { s with value := (s.value + origin) % U64 })

/-- Modelled from the spec: `relocate_area` (objects.c, not under `src/`) —
placement "assigns each merged output area a final base address" (spec 2,
4.2); symbol values are "only read and origin-shifted during linking"
(spec 3), so nothing but the final address changes. -/
def relocate_area (area : Area) (address : Nat) : Area :=
  { area with finalAddress := address }

/-- The reserved name of the synthetic relocation-table area. -/
def relocAreaName : String := "__scas_relocation_table"

/-- The symbol the driver plants in the synthetic relocation-table area
(linker.c:142-148). -/
def relocSymbol : Symbol := ⟨relocAreaName, 0, 0⟩

/-- The synthetic relocation-table area as created by the driver
(linker.c:141-151): empty buffer, the one marker symbol, no immediates. -/
def relocArea : Area := ⟨relocAreaName, [], [relocSymbol], [], 0⟩

/-- The placement loop of `link_objects` (linker.c:163-177).  Each area in
turn receives the running address; under automatic relocation a normal area
contributes its relocation entries (via `auto_relocate_area`) while the
relocation-table area itself receives the accumulated entries plus the
2-byte zero terminator (`append_to_area` is modelled from the spec as list
append).  The driver appends the relocation-table area last (linker.c:151
adds its object at the end of the order-preserving merge input), so the
accumulated entries are complete when it is reached. -/
def placeAreas (autoReloc : Bool) : List Area → Nat → List Nat → List Area
  | [], _, _ => []
  | a :: rest, address, relocAcc =>
      let a1 := relocate_area a address
      if autoReloc then
        if a1.name = relocAreaName then
          let a2 := { a1 with data := a1.data ++ relocAcc ++ [0, 0] }
          a2 :: placeAreas autoReloc rest (address + a2.data.length) relocAcc
        else
          a1 :: placeAreas autoReloc rest (address + a1.data.length)
            (auto_relocate_area a1 relocAcc)
      else
        a1 :: placeAreas autoReloc rest (address + a1.data.length) relocAcc

/-- The symbol-gathering loop of `link_objects` (linker.c:178-181). -/
def gatherAll (symbols : List Symbol) (errors : List Diag) : List Area → List Symbol × List Diag
  | [] => (symbols, errors)
  | a :: rest =>
      let r := gather_symbols symbols a errors
      gatherAll r.1 r.2 rest

/-- Result of the resolve-and-emit loop: final symbol table, diagnostics,
the per-area finished buffers in order, and the final output buffer built by
successive appends (`append_to_area(final, ...)`). -/
structure EmitResult where
  symbols : List Symbol
  errors : List Diag
  emitted : List (List Nat)
  output : List Nat
deriving Repr, DecidableEq

/-- The resolve-and-emit loop of `link_objects` (linker.c:182-191): per
area, apply the origin shift when the configured origin is nonzero, resolve
the area's late immediates, and append the patched buffer to the final
output buffer. -/
def resolveEmitLoop (origin : Nat) (symbols : List Symbol) (errors : List Diag)
    (finalData : List Nat) : List Area → EmitResult
  | [] => ⟨symbols, errors, [], finalData⟩
  | a :: rest =>
      let syms1 := if origin ≠ 0 then move_origin origin symbols else symbols
      let st := resolve_immediate_values syms1 a errors
      let r := resolveEmitLoop origin st.symbols st.errors (finalData ++ st.data) rest
      ⟨r.symbols, r.errors, st.data :: r.emitted, r.output⟩

/-- The link settings the verified core consults: the automatic-relocation
flag (`linker_settings_t`) and the origin offset
(`scas_runtime.options.origin`). -/
structure LinkerSettings where
  automaticRelocation : Bool
  origin : Nat
deriving Repr, DecidableEq

/-- Everything observable about one link run: the placed areas, the symbol
table and diagnostics after resolution, the per-area finished buffers, and
the output buffer handed to `settings->write_output`. -/
structure LinkResult where
  placed : List Area
  symbols : List Symbol
  errors : List Diag
  emitted : List (List Nat)
  output : List Nat
deriving Repr, DecidableEq

/-- `link_objects` (linker.c:135), taking the merged object's area list
(merging and optional unused-function stripping are external
collaborators).  Under automatic relocation the synthetic relocation-table
area is appended last, mirroring linker.c:149-151 together with the
order-preserving merge.  Then: place all areas, gather all symbols into an
initially empty table, resolve and emit each area, and hand the final
buffer to the output writer. -/
def link_objects (settings : LinkerSettings) (merged : List Area) : LinkResult :=
  let areas := if settings.automaticRelocation then merged ++ [relocArea] else merged
  let placed := placeAreas settings.automaticRelocation areas 0 []
  let g := gatherAll [] [] placed
  let r := resolveEmitLoop settings.origin g.1 g.2 [] placed
  { placed := placed, symbols := r.symbols, errors := r.errors,
    emitted := r.emitted, output := r.output }

end Scas

namespace Scas

/-! ### Generic helper lemmas -/

lemma buildMask_eq (n : Nat) : buildMask n = 2 ^ (n + 1) - 1 := by
  induction n with
  | zero => rfl
  | succ k ih =>
      rw [buildMask, ih, pow_succ]
      have : 1 ≤ 2 ^ (k + 1) := Nat.one_le_two_pow
      omega

lemma mkMask_eq (w : Nat) (hw : 1 ≤ w) : mkMask w = 2 ^ w - 1 := by
  rw [mkMask, buildMask_eq]
  have h : w - 1 + 1 = w := by omega
  rw [h]

lemma caseEq_iff (a b : String) : caseEq a b = true ↔ lowerKey a = lowerKey b := by
  simp [caseEq]

lemma resolveOne_symbols (f : Nat) (st : ResolveState) (imm : LateImmediate) :
    (resolveOne f st imm).symbols = st.symbols := by
  unfold resolveOne
  cases h : evaluate_expression imm.expression
      (st.symbols ++ [pcSymbol ((imm.instructionAddress + f) % U64)]) <;>
    simp [h]

lemma foldl_resolveOne_symbols (f : Nat) (imms : List LateImmediate) (st : ResolveState) :
    (imms.foldl (resolveOne f) st).symbols = st.symbols := by
  induction imms generalizing st with
  | nil => rfl
  | cons i rest ih => rw [List.foldl_cons, ih, resolveOne_symbols]

/-! ### C8: the transient `$` binding leaves the symbol table unchanged -/

/-- C8: every call to `resolve_immediate_values` leaves the symbol table
exactly as it found it — the transient `$` symbol pushed before each
expression evaluation is popped again on every path, including both failure
paths, so after the call the table has the same entries in the same order
with the same values. -/
theorem C8_symbol_table_preserved (symbols : List Symbol) (area : Area) (errors : List Diag) :
    (resolve_immediate_values symbols area errors).symbols = symbols :=
  foldl_resolveOne_symbols area.finalAddress area.lateImmediates ⟨symbols, area.data, errors⟩

/-! ### C9: symbol lookup is case-insensitive -/

/-- C9: symbol lookup is case-insensitive — in a table whose stored names
are case-insensitively distinct, looking up any name that lower-cases like a
stored symbol's name returns that symbol (with its value), and lookup
returns `none` exactly when no case-insensitive match exists. -/
theorem C9_case_insensitive_lookup :
    (∀ (table : List Symbol) (s : Symbol) (q : String),
        (table.map (fun t => lowerKey t.name)).Nodup →
        s ∈ table → caseEq s.name q = true →
        find_symbol table q = some s)
    ∧ (∀ (table : List Symbol) (q : String),
        find_symbol table q = none ↔ ∀ s ∈ table, caseEq s.name q = false) := by
  constructor
  · intro table
    induction table with
    | nil => intro s q _ hs _; cases hs
    | cons t rest ih =>
        intro s q hnd hs hq
        rcases List.mem_cons.mp hs with rfl | hmem
        · exact List.find?_cons_of_pos _ hq
        · have hne : caseEq t.name q = false := by
            by_contra hcontra
            have ht : caseEq t.name q = true := by
              cases hcase : caseEq t.name q
              · exact absurd hcase hcontra
              · rfl
            have h1 : lowerKey t.name = lowerKey q := (caseEq_iff _ _).mp ht
            have h2 : lowerKey s.name = lowerKey q := (caseEq_iff _ _).mp hq
            have : lowerKey t.name ∈ rest.map (fun t => lowerKey t.name) := by
              rw [h1, ← h2]
              exact List.mem_map_of_mem _ hmem
            exact (List.nodup_cons.mp (by simpa using hnd)).1 this
          rw [find_symbol, List.find?_cons_of_neg _ (by simp [hne]),
            ← find_symbol]
          exact ih s q (List.nodup_cons.mp (by simpa using hnd)).2 hmem hq
  · intro table q
    rw [find_symbol, List.find?_eq_none]
    constructor
    · intro h s hs
      have := h s hs
      simpa using this
    · intro h s hs
      simp [h s hs]

/-- Witness for C9 at a concrete table: defining `Foo` and looking up `FOO`
resolves to the same symbol and value, and a miss is reported for an
unrelated name. -/
theorem C9_witness :
    find_symbol [⟨"Foo", 42, 0⟩] "FOO" = some ⟨"Foo", 42, 0⟩ ∧
    (find_symbol [⟨"Foo", 42, 0⟩] "bar" = none ↔
      ∀ s ∈ [(⟨"Foo", 42, 0⟩ : Symbol)], caseEq s.name "bar" = false) :=
  ⟨C9_case_insensitive_lookup.1 [⟨"Foo", 42, 0⟩] ⟨"Foo", 42, 0⟩ "FOO"
      (by decide) (by decide) (by decide),
    C9_case_insensitive_lookup.2 [⟨"Foo", 42, 0⟩] "bar"⟩

end Scas

namespace Scas

/-! ### Bitwise helper lemmas -/

lemma and_shiftLeft_eq (d m k : Nat) : d &&& (m <<< k) = ((d >>> k) &&& m) <<< k := by
  apply Nat.eq_of_testBit_eq
  intro i
  simp only [Nat.testBit_land, Nat.testBit_shiftLeft, Nat.testBit_shiftRight]
  by_cases h : k ≤ i
  · have h2 : k + (i - k) = i := Nat.add_sub_cancel' h
    rw [h2]
    cases Nat.testBit d i <;> cases Nat.testBit m (i - k) <;> simp [h]
  · simp [h]

lemma and_two_pow_shift (d k : Nat) : d &&& 2 ^ k = d / 2 ^ k % 2 * 2 ^ k := by
  have h1 : d &&& 2 ^ k = d &&& (1 <<< k) := by rw [Nat.shiftLeft_eq, one_mul]
  rw [h1, and_shiftLeft_eq, Nat.and_one_is_mod, Nat.shiftLeft_eq,
    Nat.shiftRight_eq_div_pow]

lemma and_high_mask (d n k : Nat) (hkn : k ≤ n) :
    d &&& (2 ^ n - 2 ^ k) = d / 2 ^ k % 2 ^ (n - k) * 2 ^ k := by
  have h1 : (2 : Nat) ^ n - 2 ^ k = (2 ^ (n - k) - 1) <<< k := by
    rw [Nat.shiftLeft_eq, Nat.sub_mul, one_mul, ← pow_add]
    congr 2
    omega
  rw [h1, and_shiftLeft_eq, Nat.shiftRight_eq_div_pow,
    Nat.and_pow_two_sub_one_eq_mod, Nat.shiftLeft_eq]

lemma and_low_byte (x : Nat) : x &&& 255 = x % 256 := by
  have h := Nat.and_pow_two_sub_one_eq_mod x 8
  norm_num at h
  exact h

lemma u64sub_lt (a b : Nat) : u64sub a b < U64 := by
  rw [u64sub]
  exact Nat.mod_lt _ (by rw [U64]; positivity)

lemma mod_u64_lt (a : Nat) : a % U64 < U64 :=
  Nat.mod_lt _ (by rw [U64]; positivity)

/-- The relative-kind truncation test of linker.c:76-82 at width 8, phrased
arithmetically: for `d < 2 ^ 64` the code's bit tests fire exactly when the
64-bit delta `d` is outside `[0, 127] ∪ [2 ^ 64 - 256, 2 ^ 64 - 1]`, i.e.
when the signed delta is outside `[-256, 127]`. -/
lemma rel8_cond_iff (d : Nat) (hd : d < U64) :
    ((d &&& (mkMask 8 >>> 1)) ≠ d ∧
        ((d &&& 2 ^ 8) = 0 ∨ (d &&& compl64 (mkMask 8)) ≠ compl64 (mkMask 8))) ↔
      (127 < d ∧ d < U64 - 256) := by
  have hm : mkMask 8 = 255 := rfl
  have hms : mkMask 8 >>> 1 = 127 := rfl
  have hc : compl64 (mkMask 8) = 2 ^ 64 - 2 ^ 8 := by
    rw [hm, compl64, U64]
    norm_num
  have e1 : d &&& 127 = d % 128 := by
    have h := Nat.and_pow_two_sub_one_eq_mod d 7
    norm_num at h
    exact h
  have e2 : d &&& 2 ^ 8 = d / 2 ^ 8 % 2 * 2 ^ 8 := and_two_pow_shift d 8
  have e3 : d &&& (2 ^ 64 - 2 ^ 8) = d / 2 ^ 8 % 2 ^ 56 * 2 ^ 8 := by
    have h := and_high_mask d 64 8 (by norm_num)
    norm_num at h ⊢
    exact h
  rw [hms, hc, e1, e2, e3, U64] at *
  norm_num at *
  omega

end Scas

namespace Scas

/-! ### patchBytes lemmas -/

lemma patchBytes_length (n : Nat) : ∀ (data : List Nat) (addr v : Nat),
    (patchBytes data addr v n).length = data.length := by
  induction n with
  | zero => intro data addr v; rfl
  | succ k ih => intro data addr v; rw [patchBytes, ih, List.length_set]

lemma patchBytes_getD_outside (n : Nat) : ∀ (data : List Nat) (addr v j : Nat),
    j < addr ∨ addr + n ≤ j → (patchBytes data addr v n).getD j 0 = data.getD j 0 := by
  induction n with
  | zero => intro data addr v j _; rfl
  | succ k ih =>
      intro data addr v j hj
      rw [patchBytes, ih _ _ _ _ (by omega)]
      have hne : addr ≠ j := by omega
      simp [List.getD_eq_getElem?_getD, List.getElem?_set_ne hne]

lemma patchBytes_mod (n : Nat) : ∀ (data : List Nat) (addr v : Nat),
    patchBytes data addr (v % 2 ^ (8 * n)) n = patchBytes data addr v n := by
  induction n with
  | zero => intro data addr v; rfl
  | succ k ih =>
      intro data addr v
      have hsplit : (2 : Nat) ^ (8 * (k + 1)) = 256 * 2 ^ (8 * k) := by
        rw [Nat.mul_succ, pow_add]
        ring
      have hlow : (v % 2 ^ (8 * (k + 1))) &&& 255 = v &&& 255 := by
        rw [and_low_byte, and_low_byte, hsplit, Nat.mod_mod_of_dvd _ ⟨2 ^ (8 * k), rfl⟩]
      have hhigh : (v % 2 ^ (8 * (k + 1))) >>> 8 = (v >>> 8) % 2 ^ (8 * k) := by
        rw [Nat.shiftRight_eq_div_pow, Nat.shiftRight_eq_div_pow, hsplit]
        exact Nat.mod_mul_right_div_self v 256 (2 ^ (8 * k))
      rw [patchBytes, patchBytes, hlow, hhigh, ih]

lemma patchBytes_one (data : List Nat) (addr v : Nat) :
    patchBytes data addr v 1 = data.set addr ((data.getD addr 0) ||| (v &&& 255)) := rfl

/-! ### Reduction of `resolveOne` on the success path -/

lemma resolveOne_ok_rel (f : Nat) (st : ResolveState) (imm : LateImmediate) (v : Nat)
    (hrel : imm.type = ImmType.relative)
    (heval : evaluate_expression imm.expression
      (st.symbols ++ [pcSymbol ((imm.instructionAddress + f) % U64)]) = EvalResult.ok v) :
    resolveOne f st imm =
      { symbols := st.symbols,
        data := patchBytes st.data imm.address
          (u64sub v ((imm.baseAddress + f) % U64) &&& mkMask imm.width) (imm.width / 8),
        errors := st.errors ++
          (if (u64sub v ((imm.baseAddress + f) % U64) &&& (mkMask imm.width >>> 1)) ≠
                u64sub v ((imm.baseAddress + f) % U64) ∧
              ((u64sub v ((imm.baseAddress + f) % U64) &&& 2 ^ imm.width) = 0 ∨
                (u64sub v ((imm.baseAddress + f) % U64) &&& compl64 (mkMask imm.width)) ≠
                  compl64 (mkMask imm.width)) then
            [⟨ErrorCode.valueTruncated, (imm.instructionAddress + f) % U64, none⟩]
          else []) } := by
  simp only [resolveOne, heval, hrel, if_true, List.dropLast_concat, reduceIte]

lemma resolveOne_ok_abs (f : Nat) (st : ResolveState) (imm : LateImmediate) (v : Nat)
    (habs : imm.type = ImmType.absolute)
    (heval : evaluate_expression imm.expression
      (st.symbols ++ [pcSymbol ((imm.instructionAddress + f) % U64)]) = EvalResult.ok v) :
    resolveOne f st imm =
      { symbols := st.symbols,
        data := patchBytes st.data imm.address (v &&& mkMask imm.width) (imm.width / 8),
        errors := st.errors ++
          (if (v &&& mkMask imm.width) ≠ v ∧ compl64 v >>> imm.width ≠ 0 then
            [⟨ErrorCode.valueTruncated, (imm.instructionAddress + f) % U64, none⟩]
          else []) } := by
  simp [resolveOne, heval, habs]

end Scas

namespace Scas

/-! ### C1: 8-bit relative immediates -/

/-- Concrete input refuting C1 as stated: an 8-bit relative immediate with
base address 200 whose expression evaluates to 71, so `T - B = -129`. -/
def c1CexImm : LateImmediate := ⟨ImmType.relative, 8, 0, 200, 0, Expression.const 71⟩

/-- The area holding `c1CexImm`, one byte of buffer, placed at 0. -/
def c1CexArea : Area := ⟨"TEST", [0], [], [c1CexImm], 0⟩

/-- C1 counterexample: for the 8-bit relative immediate with `T = 71` and
`B = 200` the delta `T - B = -129` lies outside `[-128, 127]`, yet the
resolver emits no diagnostic at all (the byte `0x7F` is still written), so
the claimed "diagnostic iff outside [-128, 127]" is false on this input. -/
theorem C1_counterexample :
    ((71 : Int) - 200 < -128 ∨ 127 < (71 : Int) - 200) ∧
    (resolve_immediate_values [] c1CexArea []).errors = [] ∧
    (resolve_immediate_values [] c1CexArea []).data = [0x7F] :=
  ⟨by decide, by decide, by decide⟩

/-- C1 as amended: for every 8-bit relative late immediate whose expression
evaluates successfully to `T`, with absolute base address `B`, writing
`d = (T - B) mod 2 ^ 64`: the byte `(T - B) & 0xFF` is OR-combined into the
area buffer at the immediate's offset, and a TruncatedValue diagnostic is
emitted if and only if the delta lies outside `[-256, 127]` (as unsigned:
`d ∉ [0, 127] ∪ [2 ^ 64 - 256, 2 ^ 64 - 1]`) — the code tolerates deltas
down to `-2 ^ width`, not just `-2 ^ (width - 1)`. -/
theorem C1_relative8_amended (f : Nat) (st : ResolveState) (imm : LateImmediate) (T : Nat)
    (hrel : imm.type = ImmType.relative) (hw : imm.width = 8)
    (heval : evaluate_expression imm.expression
      (st.symbols ++ [pcSymbol ((imm.instructionAddress + f) % U64)]) = EvalResult.ok T) :
    (resolveOne f st imm).errors =
      st.errors ++
        (if 127 < u64sub T ((imm.baseAddress + f) % U64) ∧
            u64sub T ((imm.baseAddress + f) % U64) < U64 - 256 then
          [⟨ErrorCode.valueTruncated, (imm.instructionAddress + f) % U64, none⟩]
        else []) ∧
    (resolveOne f st imm).data =
      st.data.set imm.address
        ((st.data.getD imm.address 0) ||| u64sub T ((imm.baseAddress + f) % U64) % 256) := by
  have h := resolveOne_ok_rel f st imm T hrel heval
  set d := u64sub T ((imm.baseAddress + f) % U64) with hd
  have hdlt : d < U64 := u64sub_lt _ _
  constructor
  · rw [h]
    simp only [hw]
    congr 1
    rw [if_congr (rel8_cond_iff d hdlt) rfl rfl]
  · rw [h]
    simp only [hw]
    have hm : mkMask 8 = 255 := rfl
    rw [hm, patchBytes_one, and_low_byte, and_low_byte, Nat.mod_mod_of_dvd d dvd_rfl]

/-- Witness for the amended C1 at a concrete input: delta 200 is outside
`[-256, 127]`, so the diagnostic fires and the byte `200` is written. -/
theorem C1_witness :
    (resolveOne 0 ⟨[], [0], []⟩ ⟨ImmType.relative, 8, 0, 0, 0, Expression.const 200⟩).errors =
      [⟨ErrorCode.valueTruncated, 0, none⟩] ∧
    (resolveOne 0 ⟨[], [0], []⟩ ⟨ImmType.relative, 8, 0, 0, 0, Expression.const 200⟩).data =
      [200] := by
  obtain ⟨h1, h2⟩ := C1_relative8_amended 0 ⟨[], [0], []⟩
    ⟨ImmType.relative, 8, 0, 0, 0, Expression.const 200⟩ 200 rfl rfl (by decide)
  exact ⟨by rw [h1]; decide, by rw [h2]; decide⟩

/-! ### C7: absolute-kind truncation check -/

/-- The absolute-kind truncation test of linker.c:84-88, phrased
arithmetically: for `T < 2 ^ 64` and `1 ≤ w ≤ 63`, "bits outside the mask
are set AND the complement also has bits beyond the mask" holds exactly when
`2 ^ w ≤ T < 2 ^ 64 - 2 ^ w`. -/
lemma abs_cond_iff (T w : Nat) (hT : T < U64) (hw1 : 1 ≤ w) (hw2 : w ≤ 63) :
    ((T &&& mkMask w) ≠ T ∧ compl64 T >>> w ≠ 0) ↔ (2 ^ w ≤ T ∧ T < U64 - 2 ^ w) := by
  rw [mkMask_eq w hw1, Nat.and_pow_two_sub_one_eq_mod, compl64, Nat.shiftRight_eq_div_pow,
    Nat.mod_eq_of_lt hT]
  have h2 : T % 2 ^ w = T ↔ T < 2 ^ w :=
    ⟨fun h => h ▸ Nat.mod_lt _ (by positivity), Nat.mod_eq_of_lt⟩
  have h3 : (U64 - 1 - T) / 2 ^ w = 0 ↔ U64 - 1 - T < 2 ^ w :=
    Nat.div_eq_zero_iff (by positivity)
  rw [Ne, h2, Ne, h3]
  have h4 : 2 ^ w ≤ 2 ^ 63 := Nat.pow_le_pow_right (by norm_num) hw2
  have h5 : U64 = 2 ^ 64 := rfl
  rw [h5] at *
  norm_num at *
  omega

/-- C7: for every absolute-kind late immediate (realistic width,
`1 ≤ width ≤ 63`) that evaluates successfully to `result`, a TruncatedValue
diagnostic is emitted if and only if `result` has bits set outside the
low-width mask and the 64-bit complement of `result` also has bits beyond
the mask (arithmetically: `2 ^ width ≤ result < 2 ^ 64 - 2 ^ width`, which
tolerates wrapped negative constants); in either case the value masked to
`width` bits is written little-endian (OR-combined) into the buffer. -/
theorem C7_absolute_truncation (f : Nat) (st : ResolveState) (imm : LateImmediate) (T : Nat)
    (habs : imm.type = ImmType.absolute) (hw1 : 1 ≤ imm.width) (hw2 : imm.width ≤ 63)
    (hT : T < U64)
    (heval : evaluate_expression imm.expression
      (st.symbols ++ [pcSymbol ((imm.instructionAddress + f) % U64)]) = EvalResult.ok T) :
    (resolveOne f st imm).errors =
      st.errors ++
        (if 2 ^ imm.width ≤ T ∧ T < U64 - 2 ^ imm.width then
          [⟨ErrorCode.valueTruncated, (imm.instructionAddress + f) % U64, none⟩]
        else []) ∧
    (resolveOne f st imm).data =
      patchBytes st.data imm.address (T % 2 ^ imm.width) (imm.width / 8) := by
  have h := resolveOne_ok_abs f st imm T habs heval
  constructor
  · rw [h]
    rw [if_congr (abs_cond_iff T imm.width hT hw1 hw2) rfl rfl]
  · rw [h, mkMask_eq imm.width hw1, Nat.and_pow_two_sub_one_eq_mod]

/-- Witness for C7 at a concrete input: a 16-bit absolute immediate whose
expression evaluates to `0x12345` is diagnosed as truncated and the masked
value `0x2345` is still written little-endian at offset 1. -/
theorem C7_witness :
    (resolveOne 0 ⟨[], [0, 0, 0], []⟩
        ⟨ImmType.absolute, 16, 0, 0, 1, Expression.const 0x12345⟩).errors =
      [⟨ErrorCode.valueTruncated, 0, none⟩] ∧
    (resolveOne 0 ⟨[], [0, 0, 0], []⟩
        ⟨ImmType.absolute, 16, 0, 0, 1, Expression.const 0x12345⟩).data =
      [0, 0x45, 0x23] := by
  obtain ⟨h1, h2⟩ := C7_absolute_truncation 0 ⟨[], [0, 0, 0], []⟩
    ⟨ImmType.absolute, 16, 0, 0, 1, Expression.const 0x12345⟩ 0x12345 rfl (by decide) (by decide)
    (by decide) (by decide)
  exact ⟨by rw [h1]; decide, by rw [h2]; decide⟩

/-! ### C10: number of bytes patched -/

/-- C10: for every successfully evaluated late immediate exactly
`width / 8` bytes are patched: the buffer update is the little-endian OR
patch of the masked result over indices `[address, address + width / 8)`
only (length and all other indices unchanged); a width below 8 patches
nothing at all; and only the low `8 * (width / 8)` bits of the masked value
influence the patch, so for a width that is not a multiple of 8 the top
`width mod 8` bits are silently discarded. -/
theorem C10_bytes_written (f : Nat) (st : ResolveState) (imm : LateImmediate) (T : Nat)
    (heval : evaluate_expression imm.expression
      (st.symbols ++ [pcSymbol ((imm.instructionAddress + f) % U64)]) = EvalResult.ok T) :
    (resolveOne f st imm).data =
      patchBytes st.data imm.address
        ((if imm.type = ImmType.relative then u64sub T ((imm.baseAddress + f) % U64) else T)
          &&& mkMask imm.width) (imm.width / 8)
    ∧ (imm.width < 8 → (resolveOne f st imm).data = st.data)
    ∧ (resolveOne f st imm).data.length = st.data.length
    ∧ (∀ j, j < imm.address ∨ imm.address + imm.width / 8 ≤ j →
        (resolveOne f st imm).data.getD j 0 = st.data.getD j 0)
    ∧ patchBytes st.data imm.address
        ((if imm.type = ImmType.relative then u64sub T ((imm.baseAddress + f) % U64) else T)
          &&& mkMask imm.width) (imm.width / 8) =
      patchBytes st.data imm.address
        (((if imm.type = ImmType.relative then u64sub T ((imm.baseAddress + f) % U64) else T)
          &&& mkMask imm.width) % 2 ^ (8 * (imm.width / 8))) (imm.width / 8) := by
  have hdata : (resolveOne f st imm).data =
      patchBytes st.data imm.address
        ((if imm.type = ImmType.relative then u64sub T ((imm.baseAddress + f) % U64) else T)
          &&& mkMask imm.width) (imm.width / 8) := by
    cases htype : imm.type
    · rw [resolveOne_ok_abs f st imm T htype heval]
      simp [htype]
    · rw [resolveOne_ok_rel f st imm T htype heval]
      simp [htype]
  refine ⟨hdata, ?_, ?_, ?_, ?_⟩
  · intro hlt
    rw [hdata, Nat.div_eq_of_lt hlt]
    rfl
  · rw [hdata, patchBytes_length]
  · intro j hj
    rw [hdata, patchBytes_getD_outside _ _ _ _ _ hj]
  · rw [patchBytes_mod]

/-- Witness for C10 at a concrete input: a 12-bit absolute immediate whose
expression evaluates to `0xABC` patches exactly one byte (`12 / 8 = 1`),
writing `0xBC` and silently discarding the top 4 masked bits. -/
theorem C10_witness :
    (resolveOne 0 ⟨[], [0, 0], []⟩
        ⟨ImmType.absolute, 12, 0, 0, 0, Expression.const 0xABC⟩).data = [0xBC, 0] ∧
    (resolveOne 0 ⟨[], [0, 0], []⟩
        ⟨ImmType.absolute, 12, 0, 0, 0, Expression.const 0xABC⟩).data.length = 2 := by
  obtain ⟨h1, _, h3, _, _⟩ := C10_bytes_written 0 ⟨[], [0, 0], []⟩
    ⟨ImmType.absolute, 12, 0, 0, 0, Expression.const 0xABC⟩ 0xABC (by decide)
  exact ⟨by rw [h1]; decide, by rw [h3]; decide⟩

end Scas

namespace Scas

/-! ### C2: the origin shift is compounded per area -/

/-- First of two trivial areas, defining symbol `one = 5`. -/
def c2AreaA : Area := ⟨"a", [], [⟨"one", 5, 0⟩], [], 0⟩

/-- Second of two trivial areas, defining symbol `two = 7`. -/
def c2AreaB : Area := ⟨"b", [], [⟨"two", 7, 0⟩], [], 0⟩

/-- C2 failing input, evaluated: linking two areas with origin `0x8000`
leaves every symbol shifted by `2 * 0x8000 = 0x10000`, not by `0x8000`,
because `move_origin` runs once per area inside the per-area loop
(linker.c:185-187); with no origin the values are unchanged, so the claimed
uniform `+0x8000` relationship fails for any input with more than one
area. -/
theorem C2_origin_compounded :
    (link_objects ⟨false, 0x8000⟩ [c2AreaA, c2AreaB]).symbols =
      [⟨"one", 5 + 2 * 0x8000, 0⟩, ⟨"two", 7 + 2 * 0x8000, 0⟩] ∧
    (link_objects ⟨false, 0⟩ [c2AreaA, c2AreaB]).symbols =
      [⟨"one", 5, 0⟩, ⟨"two", 7, 0⟩] ∧
    (5 : Nat) + 2 * 0x8000 ≠ 5 + 0x8000 :=
  ⟨by decide, by decide, by decide⟩

/-! ### Emit-loop lemmas -/

lemma resolveOne_data_length (f : Nat) (st : ResolveState) (imm : LateImmediate) :
    (resolveOne f st imm).data.length = st.data.length := by
  unfold resolveOne
  cases h : evaluate_expression imm.expression
      (st.symbols ++ [pcSymbol ((imm.instructionAddress + f) % U64)]) <;>
    simp [h, patchBytes_length]

lemma foldl_resolveOne_data_length (f : Nat) (imms : List LateImmediate) (st : ResolveState) :
    (imms.foldl (resolveOne f) st).data.length = st.data.length := by
  induction imms generalizing st with
  | nil => rfl
  | cons i rest ih => rw [List.foldl_cons, ih, resolveOne_data_length]

lemma resolve_data_length (symbols : List Symbol) (area : Area) (errors : List Diag) :
    (resolve_immediate_values symbols area errors).data.length = area.data.length :=
  foldl_resolveOne_data_length area.finalAddress area.lateImmediates ⟨symbols, area.data, errors⟩

lemma resolveEmitLoop_output (origin : Nat) (areas : List Area) :
    ∀ (symbols : List Symbol) (errors : List Diag) (finalData : List Nat),
      (resolveEmitLoop origin symbols errors finalData areas).output =
        finalData ++ (resolveEmitLoop origin symbols errors finalData areas).emitted.flatten := by
  induction areas with
  | nil => intro symbols errors finalData; simp [resolveEmitLoop]
  | cons a rest ih =>
      intro symbols errors finalData
      simp only [resolveEmitLoop, ih, List.flatten_cons, List.append_assoc]

lemma resolveEmitLoop_emitted_lengths (origin : Nat) (areas : List Area) :
    ∀ (symbols : List Symbol) (errors : List Diag) (finalData : List Nat),
      (resolveEmitLoop origin symbols errors finalData areas).emitted.map List.length =
        areas.map (fun a => a.data.length) := by
  induction areas with
  | nil => intro symbols errors finalData; rfl
  | cons a rest ih =>
      intro symbols errors finalData
      simp only [resolveEmitLoop, List.map_cons, ih, resolve_data_length, List.cons.injEq,
        and_true]

/-! ### C6: unknown symbols are reported, skipped, and never abort the link -/

/-- C6: an immediate whose expression fails with an unknown symbol
contributes exactly one UnknownSymbol diagnostic carrying the failing name
and the absolute instruction address, leaves the buffer bytes unpatched and
the symbol table unchanged, and resolution continues with the remaining
immediates; moreover, for every input whatsoever the link completes with an
output buffer of the full placed length — diagnostics never shorten or
abort the output. -/
theorem C6_unknown_symbol :
    (∀ (f : Nat) (st : ResolveState) (imm : LateImmediate) (rest : List LateImmediate)
        (s : String),
      evaluate_expression imm.expression
          (st.symbols ++ [pcSymbol ((imm.instructionAddress + f) % U64)]) =
        EvalResult.badSymbol s →
      List.foldl (resolveOne f) st (imm :: rest) =
        List.foldl (resolveOne f)
          ⟨st.symbols, st.data,
            st.errors ++ [⟨ErrorCode.unknownSymbol, (imm.instructionAddress + f) % U64, some s⟩]⟩
          rest)
    ∧ (∀ (settings : LinkerSettings) (merged : List Area),
        (link_objects settings merged).output.length =
          ((link_objects settings merged).placed.map (fun a => a.data.length)).sum) := by
  constructor
  · intro f st imm rest s heval
    rw [List.foldl_cons]
    congr 1
    simp [resolveOne, heval]
  · intro settings merged
    simp only [link_objects, resolveEmitLoop_output, List.length_append, List.length_nil,
      List.length_flatten, resolveEmitLoop_emitted_lengths]
    simp

/-- Witness for C6 at concrete inputs: a 16-bit absolute immediate whose
expression references the undefined symbol `foo` yields exactly the one
UnknownSymbol diagnostic with the name and address, leaving the three
buffer bytes untouched. -/
theorem C6_witness :
    List.foldl (resolveOne 0) ⟨[], [1, 2, 3], []⟩
        [⟨ImmType.absolute, 16, 7, 0, 0, Expression.symRef "foo"⟩] =
      List.foldl (resolveOne 0)
        ⟨[], [1, 2, 3], [⟨ErrorCode.unknownSymbol, 7, some "foo"⟩]⟩ [] ∧
    (link_objects ⟨false, 0⟩ [c2AreaA]).output.length =
      ((link_objects ⟨false, 0⟩ [c2AreaA]).placed.map (fun a => a.data.length)).sum := by
  refine ⟨?_, C6_unknown_symbol.2 ⟨false, 0⟩ [c2AreaA]⟩
  have h := C6_unknown_symbol.1 0 ⟨[], [1, 2, 3], []⟩
    ⟨ImmType.absolute, 16, 7, 0, 0, Expression.symRef "foo"⟩ [] "foo" (by decide)
  exact h

end Scas

namespace Scas

/-! ### C5: duplicate symbols -/

lemma caseEq_eq_false_iff (a b : String) : caseEq a b = false ↔ lowerKey a ≠ lowerKey b := by
  simp [caseEq]

lemma gather_fold_no_match (syms : List Symbol) :
    ∀ (table : List Symbol) (errs : List Diag),
      (∀ s ∈ syms, ∀ t ∈ table, caseEq t.name s.name = false) →
      (syms.map (fun s => lowerKey s.name)).Nodup →
      syms.foldl gatherStep (table, errs) = (table ++ syms, errs) := by
  induction syms with
  | nil => intro table errs _ _; simp
  | cons s rest ih =>
      intro table errs hmatch hnd
      rw [List.map_cons] at hnd
      have hnd2 := List.nodup_cons.mp hnd
      have hfind : find_symbol table s.name = none := by
        rw [find_symbol, List.find?_eq_none]
        intro t ht
        simp [hmatch s (by simp) t ht]
      have hstep : gatherStep (table, errs) s = (table ++ [s], errs) := by
        simp [gatherStep, hfind]
      rw [List.foldl_cons, hstep,
        ih (table ++ [s]) errs ?_ hnd2.2]
      · simp
      · intro s2 hs2 t ht
        rcases List.mem_append.mp ht with h1 | h1
        · exact hmatch s2 (by simp [hs2]) t h1
        · have hts : t = s := by simpa using h1
          subst hts
          rw [caseEq_eq_false_iff]
          intro hk
          exact hnd2.1 (hk ▸ List.mem_map_of_mem _ hs2)

lemma find_symbol_first_match (pre : List Symbol) (s1 : Symbol) (rest : List Symbol)
    (q : String) (hpre : ∀ t ∈ pre, caseEq t.name q = false)
    (hs1 : caseEq s1.name q = true) :
    find_symbol (pre ++ s1 :: rest) q = some s1 := by
  rw [find_symbol, List.find?_append]
  have h1 : pre.find? (fun s => caseEq s.name q) = none :=
    List.find?_eq_none.mpr (by intro t ht; simp [hpre t ht])
  rw [h1]
  simpa using List.find?_cons_of_pos (p := fun s => caseEq s.name q) (rest) hs1

/-- C5: when a symbol name is defined in two different areas (and collides
with nothing else, case-insensitively), gathering produces exactly one
DuplicateSymbol diagnostic — carrying the later symbol's name and defining
address — and the global table keeps the first-defined symbol with its
value while the later definition is never inserted, so the name occurs only
once in the final table. -/
theorem C5_duplicate_symbol (pre1 post1 pre2 post2 : List Symbol) (s1 s2 : Symbol)
    (A1 A2 : Area) (errs0 : List Diag)
    (hA1 : A1.symbols = pre1 ++ s1 :: post1)
    (hA2 : A2.symbols = pre2 ++ s2 :: post2)
    (hkey : caseEq s2.name s1.name = true)
    (hnd : ((((pre1 ++ s1 :: post1) ++ pre2) ++ post2).map (fun s => lowerKey s.name)).Nodup) :
    gatherAll [] errs0 [A1, A2] =
      ((pre1 ++ s1 :: post1) ++ pre2 ++ post2,
        errs0 ++ [⟨ErrorCode.duplicateSymbol, s2.definedAddress, some s2.name⟩]) := by
  have hkey12 : lowerKey s2.name = lowerKey s1.name := by
    have := (caseEq_iff s2.name s1.name).mp hkey
    exact this
  rw [List.map_append, List.map_append] at hnd
  have h12 : (((pre1 ++ s1 :: post1).map fun s => lowerKey s.name) ++
      (pre2.map fun s => lowerKey s.name)).Nodup := hnd.of_append_left
  have hd12 : List.Disjoint ((pre1 ++ s1 :: post1).map fun s => lowerKey s.name)
      (pre2.map fun s => lowerKey s.name) := List.disjoint_of_nodup_append h12
  have hndL1 : ((pre1 ++ s1 :: post1).map fun s => lowerKey s.name).Nodup := h12.of_append_left
  have hndpre2 : (pre2.map fun s => lowerKey s.name).Nodup := h12.of_append_right
  have hndpost2 : (post2.map fun s => lowerKey s.name).Nodup := hnd.of_append_right
  have hd_post2 : List.Disjoint (((pre1 ++ s1 :: post1).map fun s => lowerKey s.name) ++
      (pre2.map fun s => lowerKey s.name)) (post2.map fun s => lowerKey s.name) :=
    List.disjoint_of_nodup_append hnd
  have hgA1 : gather_symbols [] A1 errs0 = (pre1 ++ s1 :: post1, errs0) := by
    rw [gather_symbols, hA1,
      gather_fold_no_match _ [] errs0 (by intro s _ t ht; cases ht) hndL1]
    simp
  rw [gatherAll, hgA1, gatherAll, gatherAll, gather_symbols, hA2, List.foldl_append]
  have hpre2 : pre2.foldl gatherStep (pre1 ++ s1 :: post1, errs0) =
      ((pre1 ++ s1 :: post1) ++ pre2, errs0) := by
    apply gather_fold_no_match _ _ _ ?_ hndpre2
    intro s hs t ht
    rw [caseEq_eq_false_iff]
    intro hk
    exact hd12 (List.mem_map_of_mem _ ht) (hk ▸ List.mem_map_of_mem _ hs)
  rw [hpre2, List.foldl_cons]
  have hfind : find_symbol (pre1 ++ s1 :: (post1 ++ pre2)) s2.name = some s1 := by
    apply find_symbol_first_match
    · intro t ht
      rw [caseEq_eq_false_iff, hkey12]
      intro hk
      have hdpre1 : List.Disjoint (pre1.map fun s => lowerKey s.name)
          ((s1 :: post1).map fun s => lowerKey s.name) := by
        apply List.disjoint_of_nodup_append
        rw [← List.map_append]
        exact hndL1
      exact hdpre1 (List.mem_map_of_mem _ ht) (by simp [hk])
    · rw [caseEq_iff, hkey12]
  have hstep : gatherStep ((pre1 ++ s1 :: post1) ++ pre2, errs0) s2 =
      ((pre1 ++ s1 :: post1) ++ pre2,
        errs0 ++ [⟨ErrorCode.duplicateSymbol, s2.definedAddress, some s2.name⟩]) := by
    simp only [gatherStep, List.append_assoc, List.cons_append, hfind]
  rw [hstep]
  have hpost2 : post2.foldl gatherStep ((pre1 ++ s1 :: post1) ++ pre2,
      errs0 ++ [⟨ErrorCode.duplicateSymbol, s2.definedAddress, some s2.name⟩]) =
      (((pre1 ++ s1 :: post1) ++ pre2) ++ post2,
        errs0 ++ [⟨ErrorCode.duplicateSymbol, s2.definedAddress, some s2.name⟩]) := by
    apply gather_fold_no_match _ _ _ ?_ hndpost2
    intro s hs t ht
    rw [caseEq_eq_false_iff]
    intro hk
    have hmem_s : lowerKey s.name ∈ post2.map (fun s => lowerKey s.name) :=
      List.mem_map_of_mem _ hs
    have hmem_t : lowerKey t.name ∈
        ((pre1 ++ s1 :: post1).map fun s => lowerKey s.name) ++
          (pre2.map fun s => lowerKey s.name) := by
      rw [← List.map_append]
      exact List.mem_map_of_mem _ ht
    exact hd_post2 hmem_t (by rw [hk]; exact hmem_s)
  rw [hpost2]

/-- Witness for C5 at a concrete input: areas defining `bar = 1` and
`BAR = 2` yield exactly one DuplicateSymbol diagnostic for the later
definition and the table keeps the first value. -/
theorem C5_witness :
    gatherAll [] [] [⟨"a", [], [⟨"bar", 1, 10⟩], [], 0⟩, ⟨"b", [], [⟨"BAR", 2, 20⟩], [], 0⟩] =
      ([⟨"bar", 1, 10⟩], [⟨ErrorCode.duplicateSymbol, 20, some "BAR"⟩]) := by
  have h := C5_duplicate_symbol [] [] [] [] ⟨"bar", 1, 10⟩ ⟨"BAR", 2, 20⟩
    ⟨"a", [], [⟨"bar", 1, 10⟩], [], 0⟩ ⟨"b", [], [⟨"BAR", 2, 20⟩], [], 0⟩ []
    rfl rfl (by decide) (by decide)
  simpa using h

end Scas

namespace Scas

/-! ### C3: linear placement and concatenated output -/

/-- The areas of a list occupy consecutive addresses starting at `addr`:
each area's final address is the running address, advanced by its length. -/
def addressChain : Nat → List Area → Prop
  | _, [] => True
  | addr, a :: rest => a.finalAddress = addr ∧ addressChain (addr + a.data.length) rest

lemma placeAreas_chain (auto : Bool) (areas : List Area) :
    ∀ (addr : Nat) (acc : List Nat), addressChain addr (placeAreas auto areas addr acc) := by
  induction areas with
  | nil => intro addr acc; simp [placeAreas, addressChain]
  | cons a rest ih =>
      intro addr acc
      simp only [placeAreas]
      split
      · split
        · exact ⟨rfl, ih _ _⟩
        · exact ⟨rfl, ih _ _⟩
      · exact ⟨rfl, ih _ _⟩

lemma addressChain_get_zero (addr : Nat) (l : List Area) (h : addressChain addr l)
    (hl : 0 < l.length) : (l.get ⟨0, hl⟩).finalAddress = addr := by
  cases l with
  | nil => simp at hl
  | cons a rest => exact h.1

lemma addressChain_get_succ (l : List Area) :
    ∀ (addr : Nat), addressChain addr l → ∀ (i : Nat) (h : i + 1 < l.length),
      (l.get ⟨i + 1, h⟩).finalAddress =
        (l.get ⟨i, Nat.lt_of_succ_lt h⟩).finalAddress +
          (l.get ⟨i, Nat.lt_of_succ_lt h⟩).data.length := by
  induction l with
  | nil => intro addr _ i h; simp at h
  | cons a rest ih =>
      intro addr hch i h
      cases i with
      | zero =>
          have h0 : 0 < rest.length := by
            simp only [List.length_cons] at h
            omega
          have hL : (a :: rest).get ⟨0 + 1, h⟩ = rest.get ⟨0, h0⟩ := rfl
          have hR : (a :: rest).get ⟨0, Nat.lt_of_succ_lt h⟩ = a := rfl
          rw [hL, hR, addressChain_get_zero _ _ hch.2 h0, hch.1]
      | succ j =>
          have hj : j + 1 < rest.length := by
            simp only [List.length_cons] at h
            omega
          have hL : (a :: rest).get ⟨j + 1 + 1, h⟩ = rest.get ⟨j + 1, hj⟩ := rfl
          have hR : (a :: rest).get ⟨j + 1, Nat.lt_of_succ_lt h⟩ =
              rest.get ⟨j, Nat.lt_of_succ_lt hj⟩ := rfl
          rw [hL, hR]
          exact ih _ hch.2 j hj

lemma placeAreas_names (auto : Bool) (areas : List Area) :
    ∀ (addr : Nat) (acc : List Nat),
      (placeAreas auto areas addr acc).map Area.name = areas.map Area.name := by
  induction areas with
  | nil => intro addr acc; rfl
  | cons a rest ih =>
      intro addr acc
      simp only [placeAreas]
      split
      · split
        · simp [ih, relocate_area]
        · simp [ih, relocate_area]
      · simp [ih, relocate_area]

/-- C3: after placement the first area sits at address 0 and each following
area starts exactly where the previous one ends (`final_address(area[i+1]) =
final_address(area[i]) + length(area[i])`); placement keeps the input order
and names (no reordering, and no gaps by the address recurrence itself), and
the output buffer is exactly the concatenation of the per-area finished
buffers in that order, whose lengths are the placed areas' lengths. -/
theorem C3_linear_placement (settings : LinkerSettings) (merged : List Area) :
    ((link_objects settings merged).placed.map Area.name =
        (if settings.automaticRelocation then merged ++ [relocArea] else merged).map Area.name)
    ∧ (∀ h : 0 < (link_objects settings merged).placed.length,
        ((link_objects settings merged).placed.get ⟨0, h⟩).finalAddress = 0)
    ∧ (∀ (i : Nat) (h : i + 1 < (link_objects settings merged).placed.length),
        ((link_objects settings merged).placed.get ⟨i + 1, h⟩).finalAddress =
          ((link_objects settings merged).placed.get ⟨i, Nat.lt_of_succ_lt h⟩).finalAddress +
            ((link_objects settings merged).placed.get
              ⟨i, Nat.lt_of_succ_lt h⟩).data.length)
    ∧ (link_objects settings merged).output = (link_objects settings merged).emitted.flatten
    ∧ (link_objects settings merged).emitted.map List.length =
        (link_objects settings merged).placed.map (fun a => a.data.length) := by
  have hplaced : (link_objects settings merged).placed =
      placeAreas settings.automaticRelocation
        (if settings.automaticRelocation then merged ++ [relocArea] else merged) 0 [] := rfl
  have hch := placeAreas_chain settings.automaticRelocation
    (if settings.automaticRelocation then merged ++ [relocArea] else merged) 0 []
  refine ⟨?_, ?_, ?_, ?_, ?_⟩
  · rw [hplaced, placeAreas_names]
  · intro h
    exact addressChain_get_zero 0 _ hch h
  · intro i h
    exact addressChain_get_succ _ 0 hch i h
  · have h := resolveEmitLoop_output settings.origin (link_objects settings merged).placed
      (gatherAll [] [] (link_objects settings merged).placed).1
      (gatherAll [] [] (link_objects settings merged).placed).2 []
    simpa using h
  · exact resolveEmitLoop_emitted_lengths settings.origin _ _ _ _

/-- First demo area for the C3 witness: three bytes at address 0. -/
def c3AreaA : Area := ⟨"x", [1, 2, 3], [], [], 0⟩

/-- Second demo area for the C3 witness: two bytes, placed right after. -/
def c3AreaB : Area := ⟨"y", [4, 5], [], [], 0⟩

/-- Witness for C3 at a concrete input: the second area is placed exactly
at the end of the first (address 3) and the output buffer is the
concatenation of the two buffers. -/
theorem C3_witness :
    ((link_objects ⟨false, 0⟩ [c3AreaA, c3AreaB]).placed.get
        ⟨1, by decide⟩).finalAddress = 3 ∧
    (link_objects ⟨false, 0⟩ [c3AreaA, c3AreaB]).output = [1, 2, 3, 4, 5] := by
  have h := C3_linear_placement ⟨false, 0⟩ [c3AreaA, c3AreaB]
  constructor
  · have h2 := h.2.2.1 0 (by decide)
    rw [h2]
    decide
  · rw [h.2.2.2.1]
    decide

end Scas

namespace Scas

/-! ### C4: relocation table contents -/

/-- Modelled from the spec (4.3), the declarative per-immediate rule: a late
immediate whose kind is absolute and whose patch offset differs from its
base address contributes one little-endian 2-byte entry equal to
`offset + final_address` (as a 16-bit value); relative immediates contribute
nothing. -/
def immRelocEntry (finalAddress : Nat) (imm : LateImmediate) : List Nat :=
  if imm.type ≠ ImmType.relative ∧ imm.baseAddress ≠ imm.address then
    [(imm.address + finalAddress) % 2 ^ 16 % 256, (imm.address + finalAddress) % 2 ^ 16 / 256]
  else []

/-- All relocation entries of one placed area, in visitation order. -/
def areaRelocEntries (a : Area) : List Nat :=
  (a.lateImmediates.map (immRelocEntry a.finalAddress)).flatten

/-- Modelled from the spec (4.2-4.3): the relocation entries of a list of
areas laid out linearly from `addr`, in placement and visitation order. -/
def expectedRelocEntries : Nat → List Area → List Nat
  | _, [] => []
  | addr, a :: rest =>
      areaRelocEntries (relocate_area a addr) ++
        expectedRelocEntries (addr + a.data.length) rest

lemma relocStep_fold (fa : Nat) (imms : List LateImmediate) :
    ∀ (acc : List Nat),
      imms.foldl (relocStep fa) acc = acc ++ (imms.map (immRelocEntry fa)).flatten := by
  induction imms with
  | nil => intro acc; simp
  | cons imm rest ih =>
      intro acc
      rw [List.foldl_cons, ih]
      by_cases hc : imm.type ≠ ImmType.relative ∧ imm.baseAddress ≠ imm.address
      · simp [relocStep, immRelocEntry, hc]
      · simp [relocStep, immRelocEntry, hc]

lemma auto_relocate_eq (a : Area) (acc : List Nat) :
    auto_relocate_area a acc = acc ++ areaRelocEntries a :=
  relocStep_fold a.finalAddress a.lateImmediates acc

lemma placeAreas_reloc_split (merged : List Area) :
    ∀ (addr : Nat) (acc : List Nat),
      (∀ a ∈ merged, a.name ≠ relocAreaName) →
      placeAreas true (merged ++ [relocArea]) addr acc =
        placeAreas true merged addr acc ++
          [⟨relocAreaName, acc ++ expectedRelocEntries addr merged ++ [0, 0], [relocSymbol], [],
            addr + (merged.map (fun a => a.data.length)).sum⟩] := by
  induction merged with
  | nil =>
      intro addr acc _
      simp [placeAreas, relocate_area, relocArea, expectedRelocEntries]
  | cons a rest ih =>
      intro addr acc hname
      have hne : a.name ≠ relocAreaName := hname a (by simp)
      rw [List.cons_append]
      simp only [placeAreas, relocate_area, if_true]
      rw [if_neg (by simpa using hne), if_neg (by simpa using hne)]
      rw [ih _ _ (fun x hx => hname x (by simp [hx]))]
      simp only [auto_relocate_eq, expectedRelocEntries, relocate_area]
      simp [Nat.add_assoc, List.append_assoc]

/-- C4: under automatic relocation the relocation-table area ends up last,
and its buffer is exactly the per-area relocation entries — one
little-endian 2-byte entry `offset + final_address` for each late immediate
whose kind is absolute and whose patch offset differs from its base
address, in placement and visitation order — followed by the single 2-byte
zero terminator; relative-kind immediates contribute no entry. -/
theorem C4_relocation_table (settings : LinkerSettings) (merged : List Area)
    (hauto : settings.automaticRelocation = true)
    (hname : ∀ a ∈ merged, a.name ≠ relocAreaName) :
    (link_objects settings merged).placed.getLast? =
      some ⟨relocAreaName, expectedRelocEntries 0 merged ++ [0, 0], [relocSymbol], [],
        (merged.map (fun a => a.data.length)).sum⟩ := by
  have hplaced : (link_objects settings merged).placed =
      placeAreas settings.automaticRelocation
        (if settings.automaticRelocation then merged ++ [relocArea] else merged) 0 [] := rfl
  rw [hplaced, hauto, if_pos rfl, placeAreas_reloc_split merged 0 [] hname,
    List.getLast?_concat]
  simp

/-- Padding area of length `0x100` for the C4 witness. -/
def c4Pad : Area := ⟨"PAD", List.replicate 256 0, [], [], 0⟩

/-- Area holding one absolute 16-bit immediate at area-relative offset 4
(base address 3, so offset ≠ base), for the C4 witness. -/
def c4AreaX : Area :=
  ⟨"X", List.replicate 8 0, [], [⟨ImmType.absolute, 16, 0, 3, 4, Expression.const 0x1234⟩], 0⟩

set_option maxRecDepth 100000 in
/-- Witness for C4 at the claim's concrete example: one absolute 16-bit
immediate at offset 4 in an area placed at `0x100` yields the entry
`0x0104` (bytes `04 01`) followed by the terminator `0x0000`. -/
theorem C4_witness :
    (link_objects ⟨true, 0⟩ [c4Pad, c4AreaX]).placed.getLast? =
      some ⟨relocAreaName, [0x04, 0x01, 0, 0], [relocSymbol], [], 264⟩ := by
  have h := C4_relocation_table ⟨true, 0⟩ [c4Pad, c4AreaX] rfl (by decide)
  rw [h]
  decide

end Scas
